import Mathlib

/-!
Shallow embedding of the ODL block-operator layer
(odl/operator/pspace_ops.py) and of the smooth quasi-Newton solvers
(odl/solvers/smooth/newton.py), together with theorems checking the
natural-language specification of the repository against the code.

Machine floats are modelled by the rationals: the claims under study are
about control flow, accumulation structure and exact algebra, not about
rounding. Product-space elements are modelled as functions from the
component index, sub-operators as plain functions on an abstract element
type, and spaces as identifiers compared for equality, exactly as the
source compares space objects.
-/

namespace ODL

/-- A space is identified abstractly; the source only ever compares
spaces for equality when validating the block matrix. -/
abbrev Space := Nat

/-- A sub-operator entry of the block matrix: its domain and range space,
its linearity flag and its action on elements. -/
structure POp (V : Type) where
  dom : Space
  ran : Space
  linear : Bool
  f : V → V

/-- One stored entry of the sparse COO representation of the operator
matrix built by ProductSpaceOperator.__init__: row index, column index
and the sub-operator. -/
structure PTriple (V : Type) where
  row : Nat
  col : Nat
  op : POp V

/-- Present entries of one grid row, with their column indices. -/
def rowTriples {V : Type} (i : Nat) (row : List (Option (POp V))) : List (PTriple V) :=
  row.enum.filterMap fun p => p.2.map fun op => PTriple.mk i p.1 op

/-- Row-major list of the present entries of the operator grid, as
produced by converting the dense array-like to COO sparse form (a 0/None
entry means the implicit zero operator and is dropped). -/
def gridTriples {V : Type} (grid : List (List (Option (POp V)))) : List (PTriple V) :=
  (grid.enum.map fun p => rowTriples p.1 p.2).flatten

/-- Accumulation loop of ProductSpaceOperator._call: each stored block
adds its contribution into its output row. -/
def callLoop {V : Type} [AddCommMonoid V] (x : Nat → V) :
    List (PTriple V) → (Nat → V) → (Nat → V)
  | [], out => out
  | t :: ts, out =>
      callLoop x ts (Function.update out t.row (out t.row + t.op.f (x t.col)))

/-- ProductSpaceOperator._call: start from the zero element of the range
and accumulate every stored block into its row. -/
def psCall {V : Type} [AddCommMonoid V] (ts : List (PTriple V)) (x : Nat → V) : Nat → V :=
  callLoop x ts fun _ => 0

/-- Loop of ProductSpaceOperator._apply over the stored triples: the
first block encountered for a row overwrites out[row], every later block
for that row adds into it; the bool array records which rows were
written. -/
def applyLoop {V : Type} [AddCommMonoid V] (x : Nat → V) :
    List (PTriple V) → (Nat → V) → (Nat → Bool) → (Nat → V) × (Nat → Bool)
  | [], out, ev => (out, ev)
  | t :: ts, out, ev =>
      let r := t.op.f (x t.col)
      let out1 := if ev t.row then Function.update out t.row (out t.row + r)
        else Function.update out t.row r
      applyLoop x ts out1 (Function.update ev t.row true)

/-- Final pass of ProductSpaceOperator._apply: every row that received no
block is set to zero. -/
def zeroFill {V : Type} [Zero V] (R : Nat) (out : Nat → V) (ev : Nat → Bool) : Nat → V :=
  (List.range R).foldl (fun o i => if ev i then o else Function.update o i 0) out

/-- ProductSpaceOperator._apply on a range with R rows: run the
accumulation loop into the caller-supplied out, then zero the untouched
rows. -/
def psApply {V : Type} [AddCommMonoid V] (R : Nat) (ts : List (PTriple V))
    (x : Nat → V) (out : Nat → V) : Nat → V :=
  let res := applyLoop x ts out fun _ => false
  zeroFill R res.1 res.2

/-- Sum of the contributions of the blocks stored in output row i, in
stored (row-major) order. -/
def rowSum {V : Type} [AddCommMonoid V] (ts : List (PTriple V)) (x : Nat → V) (i : Nat) : V :=
  ((ts.filter fun t => t.row == i).map fun t => t.op.f (x t.col)).sum

theorem callLoop_eq {V : Type} [AddCommMonoid V] (x : Nat → V) :
    ∀ (ts : List (PTriple V)) (out : Nat → V) (i : Nat),
      callLoop x ts out i = out i + rowSum ts x i := by
  intro ts
  induction ts with
  | nil => intro out i; simp [callLoop, rowSum]
  | cons t ts ih =>
      intro out i
      rw [callLoop, ih]
      by_cases h : t.row = i
      · subst h
        simp [rowSum, Function.update_same, add_assoc]
      · have hb : (t.row == i) = false := by simp [h]
        simp [rowSum, Function.update_noteq (Ne.symm h), hb]

theorem psCall_eq_rowSum {V : Type} [AddCommMonoid V] (ts : List (PTriple V))
    (x : Nat → V) (i : Nat) : psCall ts x i = rowSum ts x i := by
  simpa [psCall] using callLoop_eq x ts (fun _ => 0) i

theorem rowSum_eq_zero {V : Type} [AddCommMonoid V] (ts : List (PTriple V))
    (x : Nat → V) (i : Nat) (h : ∀ u ∈ ts, u.row ≠ i) : rowSum ts x i = 0 := by
  have hf : ts.filter (fun t => t.row == i) = [] := by
    rw [List.filter_eq_nil_iff]
    intro a ha
    simpa using h a ha
  simp [rowSum, hf]

theorem rowSum_cons {V : Type} [AddCommMonoid V] (t : PTriple V) (ts : List (PTriple V))
    (x : Nat → V) (i : Nat) :
    rowSum (t :: ts) x i =
      if t.row = i then t.op.f (x t.col) + rowSum ts x i else rowSum ts x i := by
  by_cases h : t.row = i <;> simp [rowSum, List.filter_cons, h]

theorem applyLoop_ev {V : Type} [AddCommMonoid V] (x : Nat → V) :
    ∀ (ts : List (PTriple V)) (out : Nat → V) (ev : Nat → Bool) (i : Nat),
      (applyLoop x ts out ev).2 i = (ev i || ts.any fun t => t.row == i) := by
  intro ts
  induction ts with
  | nil => intro out ev i; simp [applyLoop]
  | cons t ts ih =>
      intro out ev i
      rw [applyLoop]
      by_cases h : t.row = i
      · subst h
        simp [ih, Function.update_same]
      · have hb : (t.row == i) = false := by simp [h]
        simp [ih, Function.update_noteq (Ne.symm h), hb]

theorem applyLoop_out {V : Type} [AddCommMonoid V] (x : Nat → V) :
    ∀ (ts : List (PTriple V)) (out : Nat → V) (ev : Nat → Bool) (i : Nat),
      (applyLoop x ts out ev).1 i =
        if ∃ u ∈ ts, u.row = i then
          (if ev i = true then out i + rowSum ts x i else rowSum ts x i)
        else out i := by
  intro ts
  induction ts with
  | nil => intro out ev i; simp [applyLoop]
  | cons t ts ih =>
      intro out ev i
      simp only [applyLoop]
      rw [ih]
      by_cases h : t.row = i
      · subst h
        by_cases hany : ∃ u ∈ ts, u.row = t.row
        · by_cases hev : ev t.row = true
          · simp [hany, hev, Function.update_same, rowSum_cons, add_assoc]
          · simp [hany, hev, Function.update_same, rowSum_cons]
        · have hz : rowSum ts x t.row = 0 := by
            apply rowSum_eq_zero
            intro u hu
            exact fun he => hany ⟨u, hu, he⟩
          by_cases hev : ev t.row = true
          · simp [hany, hev, Function.update_same, rowSum_cons, hz]
          · simp [hany, hev, Function.update_same, rowSum_cons, hz]
      · by_cases hev : ev t.row = true
        · simp [h, hev, Function.update_noteq (Ne.symm h), rowSum_cons]
        · simp [h, hev, Function.update_noteq (Ne.symm h), rowSum_cons]

theorem zeroFill_eq {V : Type} [Zero V] :
    ∀ (R : Nat) (out : Nat → V) (ev : Nat → Bool) (j : Nat),
      zeroFill R out ev j = if j < R ∧ ev j = false then 0 else out j := by
  intro R
  induction R with
  | zero => intro out ev j; simp [zeroFill]
  | succ R ih =>
      intro out ev j
      rw [zeroFill, List.range_succ, List.foldl_append]
      simp only [List.foldl_cons, List.foldl_nil]
      rw [show (List.range R).foldl
            (fun o i => if ev i then o else Function.update o i 0) out
          = zeroFill R out ev from rfl]
      by_cases hev : ev R = true
      · rw [if_pos hev, ih]
        by_cases hevj : ev j = false
        · by_cases hj : j < R
          · simp [hj, hevj, Nat.lt_succ_of_lt hj]
          · have hne : j ≠ R := fun he => by rw [he, hev] at hevj; cases hevj
            have h1 : ¬ j < R + 1 := by omega
            simp [hj, h1, hevj]
        · simp [hevj]
      · rw [if_neg hev]
        by_cases hjR : j = R
        · subst hjR
          rw [Function.update_same, if_pos]
          exact ⟨Nat.lt_succ_self j, by simpa using hev⟩
        · rw [Function.update_noteq hjR, ih]
          by_cases hj : j < R
          · simp [hj, Nat.lt_succ_of_lt hj]
          · have hj1 : ¬ j < R + 1 := by omega
            simp [hj, hj1]

/-- ComponentProjection: the linear projection of a product-space
element onto the sub-product selected by an index collection (modelled
as a list of component indices). The source stores the full space and
the index. -/
structure CompProj where
  space : List Space
  index : List Nat

/-- ComponentProjectionAdjoint: the injection of a sub-product element
into the full product space, zero on the other components. The source
stores the full space (as the operator range) and the index. -/
structure CompProjAdj where
  space : List Space
  index : List Nat

/-- The sub-product space space[index]. -/
def subSpace (S : List Space) (idx : List Nat) : List Space :=
  idx.map fun i => S.getD i 0

/-- Domain of ComponentProjection: the full product space. -/
def CompProj.domainS (p : CompProj) : List Space := p.space

/-- Range of ComponentProjection: the selected sub-product. -/
def CompProj.rangeS (p : CompProj) : List Space := subSpace p.space p.index

/-- Action of ComponentProjection._call: a copy of the selected
components of x. -/
def CompProj.callF {V : Type} (p : CompProj) (x : Nat → V) : List V :=
  p.index.map fun i => x i

/-- Domain of ComponentProjectionAdjoint: the selected sub-product. -/
def CompProjAdj.domainS (a : CompProjAdj) : List Space := subSpace a.space a.index

/-- Range of ComponentProjectionAdjoint: the full product space. -/
def CompProjAdj.rangeS (a : CompProjAdj) : List Space := a.space

/-- Action of ComponentProjectionAdjoint._call: the zero element of the
full space with x written at the selected indices. -/
def CompProjAdj.callF {V : Type} [Zero V] (a : CompProjAdj) (x : List V) : Nat → V :=
  (a.index.zip x).foldl (fun o p => Function.update o p.1 p.2) fun _ => 0

/-- ComponentProjection.adjoint: a ComponentProjectionAdjoint built over
the projection's domain and index. -/
def CompProj.adjoint (p : CompProj) : CompProjAdj :=
  ⟨p.domainS, p.index⟩

/-- ComponentProjectionAdjoint.adjoint: a ComponentProjection built over
the adjoint's range and index. -/
def CompProjAdj.adjoint (a : CompProjAdj) : CompProj :=
  ⟨a.rangeS, a.index⟩

/-- Failures of ProductSpaceOperator.__init__: the Python
UnboundLocalError hit when reading the never-assigned local domains or
ranges list, the two inconsistency ValueErrors (carrying the offending
column or row and the two conflicting spaces) and the two
empty-column/row ValueErrors. Failures that the typed embedding rules
out (non-ProductSpace dom/ran, non-Operator entries) are not modelled. -/
inductive InitErr where
  | unboundLocal : InitErr
  | colDomains (col : Nat) (s1 s2 : Space) : InitErr
  | rowRanges (row : Nat) (s1 s2 : Space) : InitErr
  | emptyCol (col : Nat) : InitErr
  | emptyRow (row : Nat) : InitErr
deriving DecidableEq

/-- Domain half of one iteration of the consistency loop: read
domains[col] (UnboundLocalError when the list was never assigned, i.e.
when dom was supplied), record the operator's domain on first sight and
compare against it afterwards. -/
def domStep {V : Type} (t : PTriple V) :
    Option (Nat → Option Space) → Except InitErr (Option (Nat → Option Space))
  | none => .error .unboundLocal
  | some ds =>
    match ds t.col with
    | none => .ok (some (Function.update ds t.col (some t.op.dom)))
    | some d => if d = t.op.dom then .ok (some ds)
        else .error (.colDomains t.col d t.op.dom)

/-- Range half of one iteration of the consistency loop. -/
def ranStep {V : Type} (t : PTriple V) :
    Option (Nat → Option Space) → Except InitErr (Option (Nat → Option Space))
  | none => .error .unboundLocal
  | some rs =>
    match rs t.row with
    | none => .ok (some (Function.update rs t.row (some t.op.ran)))
    | some r => if r = t.op.ran then .ok (some rs)
        else .error (.rowRanges t.row r t.op.ran)

/-- The consistency loop of ProductSpaceOperator.__init__ over the
stored triples: per triple, domain check first, then range check. -/
def checkTriples {V : Type} :
    List (PTriple V) → Option (Nat → Option Space) → Option (Nat → Option Space) →
      Except InitErr (Option (Nat → Option Space) × Option (Nat → Option Space))
  | [], dso, rso => .ok (dso, rso)
  | t :: ts, dso, rso =>
    match domStep t dso with
    | .error e => .error e
    | .ok ds1 =>
      match ranStep t rso with
      | .error e => .error e
      | .ok rs1 => checkTriples ts ds1 rs1

/-- The inference pass building ProductSpace(*domains) (resp. ranges):
walk the indices in order and fail at the first still-empty slot,
reporting its index. -/
def inferLoop (arr : Nat → Option Space) : List Nat → Except Nat (List Space)
  | [] => .ok []
  | i :: is =>
    match arr i with
    | none => .error i
    | some s =>
      match inferLoop arr is with
      | .error j => .error j
      | .ok l => .ok (s :: l)

/-- Post-processing of ProductSpaceOperator.__init__ after the
consistency loop: accept the explicit dom/ran verbatim or infer them
from the filled lists (failing on a still-empty column or row), then
return domain, range and the linearity flag. -/
def psInitPost (R C : Nat) (linear : Bool) (dom ran : Option (List Space))
    (res : Except InitErr (Option (Nat → Option Space) × Option (Nat → Option Space))) :
    Except InitErr (List Space × List Space × Bool) :=
  match res with
  | .error e => .error e
  | .ok (dso, rso) =>
    let domRes : Except InitErr (List Space) :=
      match dom with
      | some d => .ok d
      | none =>
        match dso with
        | none => .error .unboundLocal
        | some ds =>
          match inferLoop ds (List.range C) with
          | .error c => .error (.emptyCol c)
          | .ok l => .ok l
    match domRes with
    | .error e => .error e
    | .ok dspaces =>
      let ranRes : Except InitErr (List Space) :=
        match ran with
        | some r => .ok r
        | none =>
          match rso with
          | none => .error .unboundLocal
          | some rs =>
            match inferLoop rs (List.range R) with
            | .error r => .error (.emptyRow r)
            | .ok l => .ok l
      match ranRes with
      | .error e => .error e
      | .ok rspaces => .ok (dspaces, rspaces, linear)

/-- ProductSpaceOperator.__init__: convert the grid to COO triples, run
the consistency loop (with the domains/ranges locals bound only when
dom/ran was omitted, as in the source), then accept or infer the spaces
and compute the linearity flag. -/
def psInit {V : Type} (grid : List (List (Option (POp V))))
    (dom ran : Option (List Space)) :
    Except InitErr (List Space × List Space × Bool) :=
  let ts := gridTriples grid
  let ds0 : Option (Nat → Option Space) :=
    if dom.isSome then none else some fun _ => none
  let rs0 : Option (Nat → Option Space) :=
    if ran.isSome then none else some fun _ => none
  psInitPost grid.length (grid.headD []).length (ts.all fun t => t.op.linear)
    dom ran (checkTriples ts ds0 rs0)

/-- The error of the consistency loop names a genuine conflict: a column
whose stored operators take two distinct domains, or a row whose stored
operators take two distinct ranges, both spaces being domains (ranges)
of operators actually stored in that column (row) of F. -/
def genuineErr {V : Type} (F : List (PTriple V)) (e : InitErr) : Prop :=
  (∃ c s1 s2, e = .colDomains c s1 s2 ∧ s1 ≠ s2 ∧
    (∃ t ∈ F, t.col = c ∧ t.op.dom = s1) ∧ (∃ t ∈ F, t.col = c ∧ t.op.dom = s2)) ∨
  (∃ r s1 s2, e = .rowRanges r s1 s2 ∧ s1 ≠ s2 ∧
    (∃ t ∈ F, t.row = r ∧ t.op.ran = s1) ∧ (∃ t ∈ F, t.row = r ∧ t.op.ran = s2))


theorem domStep_some_eq {V : Type} (t : PTriple V) (ds : Nat → Option Space) :
    domStep t (some ds) =
      (match ds t.col with
       | none => .ok (some (Function.update ds t.col (some t.op.dom)))
       | some d => if d = t.op.dom then .ok (some ds)
           else .error (.colDomains t.col d t.op.dom)) := rfl

theorem ranStep_some_eq {V : Type} (t : PTriple V) (rs : Nat → Option Space) :
    ranStep t (some rs) =
      (match rs t.row with
       | none => .ok (some (Function.update rs t.row (some t.op.ran)))
       | some r => if r = t.op.ran then .ok (some rs)
           else .error (.rowRanges t.row r t.op.ran)) := rfl

theorem domStep_ok_char {V : Type} {t : PTriple V} {ds : Nat → Option Space}
    {o : Option (Nat → Option Space)} (h : domStep t (some ds) = .ok o) :
    ∃ ds1, o = some ds1 ∧ ds1 t.col = some t.op.dom ∧
      (∀ c d, ds c = some d → ds1 c = some d) ∧
      (∀ c d, ds1 c = some d → ds c = some d ∨ (c = t.col ∧ d = t.op.dom)) := by
  rw [domStep_some_eq] at h
  rcases hd : ds t.col with _ | d
  · rw [hd] at h
    have h2 : Except.ok (ε := InitErr)
        (some (Function.update ds t.col (some t.op.dom))) = Except.ok o := h
    cases h2
    refine ⟨_, rfl, Function.update_same _ _ _, ?_, ?_⟩
    · intro c d hc
      have hcne : c ≠ t.col := fun he => by rw [he, hd] at hc; cases hc
      rw [Function.update_noteq hcne]
      exact hc
    · intro c d hc
      by_cases hce : c = t.col
      · subst hce
        rw [Function.update_same] at hc
        cases hc
        exact Or.inr ⟨rfl, rfl⟩
      · rw [Function.update_noteq hce] at hc
        exact Or.inl hc
  · rw [hd] at h
    have h2 : (if d = t.op.dom then Except.ok (ε := InitErr) (some ds)
        else .error (.colDomains t.col d t.op.dom)) = .ok o := h
    by_cases hdeq : d = t.op.dom
    · rw [if_pos hdeq] at h2
      cases h2
      subst hdeq
      exact ⟨ds, rfl, hd, fun _ _ hc => hc, fun _ _ hc => Or.inl hc⟩
    · rw [if_neg hdeq] at h2
      cases h2

theorem domStep_error_char {V : Type} {t : PTriple V} {ds : Nat → Option Space}
    {e : InitErr} (h : domStep t (some ds) = .error e) :
    ∃ d, ds t.col = some d ∧ d ≠ t.op.dom ∧ e = .colDomains t.col d t.op.dom := by
  rw [domStep_some_eq] at h
  rcases hd : ds t.col with _ | d
  · rw [hd] at h
    have h2 : Except.ok (ε := InitErr)
        (some (Function.update ds t.col (some t.op.dom))) = Except.error e := h
    cases h2
  · rw [hd] at h
    have h2 : (if d = t.op.dom then Except.ok (ε := InitErr) (some ds)
        else .error (.colDomains t.col d t.op.dom)) = .error e := h
    by_cases hdeq : d = t.op.dom
    · rw [if_pos hdeq] at h2
      cases h2
    · rw [if_neg hdeq] at h2
      cases h2
      exact ⟨d, rfl, hdeq, rfl⟩

theorem ranStep_ok_char {V : Type} {t : PTriple V} {rs : Nat → Option Space}
    {o : Option (Nat → Option Space)} (h : ranStep t (some rs) = .ok o) :
    ∃ rs1, o = some rs1 ∧ rs1 t.row = some t.op.ran ∧
      (∀ r s, rs r = some s → rs1 r = some s) ∧
      (∀ r s, rs1 r = some s → rs r = some s ∨ (r = t.row ∧ s = t.op.ran)) := by
  rw [ranStep_some_eq] at h
  rcases hr : rs t.row with _ | r
  · rw [hr] at h
    have h2 : Except.ok (ε := InitErr)
        (some (Function.update rs t.row (some t.op.ran))) = Except.ok o := h
    cases h2
    refine ⟨_, rfl, Function.update_same _ _ _, ?_, ?_⟩
    · intro r s hc
      have hrne : r ≠ t.row := fun he => by rw [he, hr] at hc; cases hc
      rw [Function.update_noteq hrne]
      exact hc
    · intro r s hc
      by_cases hre : r = t.row
      · subst hre
        rw [Function.update_same] at hc
        cases hc
        exact Or.inr ⟨rfl, rfl⟩
      · rw [Function.update_noteq hre] at hc
        exact Or.inl hc
  · rw [hr] at h
    have h2 : (if r = t.op.ran then Except.ok (ε := InitErr) (some rs)
        else .error (.rowRanges t.row r t.op.ran)) = .ok o := h
    by_cases hreq : r = t.op.ran
    · rw [if_pos hreq] at h2
      cases h2
      subst hreq
      exact ⟨rs, rfl, hr, fun _ _ hc => hc, fun _ _ hc => Or.inl hc⟩
    · rw [if_neg hreq] at h2
      cases h2

theorem ranStep_error_char {V : Type} {t : PTriple V} {rs : Nat → Option Space}
    {e : InitErr} (h : ranStep t (some rs) = .error e) :
    ∃ r, rs t.row = some r ∧ r ≠ t.op.ran ∧ e = .rowRanges t.row r t.op.ran := by
  rw [ranStep_some_eq] at h
  rcases hr : rs t.row with _ | r
  · rw [hr] at h
    have h2 : Except.ok (ε := InitErr)
        (some (Function.update rs t.row (some t.op.ran))) = Except.error e := h
    cases h2
  · rw [hr] at h
    have h2 : (if r = t.op.ran then Except.ok (ε := InitErr) (some rs)
        else .error (.rowRanges t.row r t.op.ran)) = .error e := h
    by_cases hreq : r = t.op.ran
    · rw [if_pos hreq] at h2
      cases h2
    · rw [if_neg hreq] at h2
      cases h2
      exact ⟨r, rfl, hreq, rfl⟩

theorem checkTriples_ok_agree {V : Type} :
    ∀ (ts : List (PTriple V)) (ds rs : Nat → Option Space)
      (out : Option (Nat → Option Space) × Option (Nat → Option Space)),
      checkTriples ts (some ds) (some rs) = .ok out →
      ∀ t ∈ ts, (∀ d, ds t.col = some d → t.op.dom = d) ∧
        (∀ r, rs t.row = some r → t.op.ran = r) := by
  intro ts
  induction ts with
  | nil => intro ds rs out _ t ht; cases ht
  | cons t ts ih =>
      intro ds rs out h u hu
      rw [checkTriples] at h
      split at h
      · cases h
      · rename_i ds1o hds
        split at h
        · cases h
        · rename_i rs1o hrs
          obtain ⟨ds1, rfl, hset, hmono, hback⟩ := domStep_ok_char hds
          obtain ⟨rs1, rfl, hrset, hrmono, hrback⟩ := ranStep_ok_char hrs
          rcases List.mem_cons.mp hu with rfl | hmem
          · constructor
            · intro d hdd
              have := hmono _ _ hdd
              rw [hset] at this
              cases this
              rfl
            · intro r hrr
              have := hrmono _ _ hrr
              rw [hrset] at this
              cases this
              rfl
          · have htail := ih ds1 rs1 out h u hmem
            constructor
            · intro d hdd
              exact htail.1 d (hmono _ _ hdd)
            · intro r hrr
              exact htail.2 r (hrmono _ _ hrr)

theorem checkTriples_ok_pairwise {V : Type} :
    ∀ (ts : List (PTriple V)) (ds rs : Nat → Option Space)
      (out : Option (Nat → Option Space) × Option (Nat → Option Space)),
      checkTriples ts (some ds) (some rs) = .ok out →
      ∀ t1 ∈ ts, ∀ t2 ∈ ts,
        (t1.col = t2.col → t1.op.dom = t2.op.dom) ∧
        (t1.row = t2.row → t1.op.ran = t2.op.ran) := by
  intro ts
  induction ts with
  | nil => intro ds rs out _ t1 ht1; cases ht1
  | cons t ts ih =>
      intro ds rs out h t1 ht1 t2 ht2
      rw [checkTriples] at h
      split at h
      · cases h
      · rename_i ds1o hds
        split at h
        · cases h
        · rename_i rs1o hrs
          obtain ⟨ds1, rfl, hset, hmono, hback⟩ := domStep_ok_char hds
          obtain ⟨rs1, rfl, hrset, hrmono, hrback⟩ := ranStep_ok_char hrs
          rcases List.mem_cons.mp ht1 with rfl | hm1 <;>
            rcases List.mem_cons.mp ht2 with rfl | hm2
          · exact ⟨fun _ => rfl, fun _ => rfl⟩
          · have ha := checkTriples_ok_agree ts ds1 rs1 out h t2 hm2
            constructor
            · intro hc
              exact (ha.1 t1.op.dom (by rw [← hc]; exact hset)).symm
            · intro hrw
              exact (ha.2 t1.op.ran (by rw [← hrw]; exact hrset)).symm
          · have ha := checkTriples_ok_agree ts ds1 rs1 out h t1 hm1
            constructor
            · intro hc
              exact ha.1 t2.op.dom (by rw [hc]; exact hset)
            · intro hrw
              exact ha.2 t2.op.ran (by rw [hrw]; exact hrset)
          · exact ih ds1 rs1 out h t1 hm1 t2 hm2

theorem checkTriples_error_genuine {V : Type} :
    ∀ (ts F : List (PTriple V)) (ds rs : Nat → Option Space) (e : InitErr),
      (∀ t ∈ ts, t ∈ F) →
      (∀ c d, ds c = some d → ∃ t ∈ F, t.col = c ∧ t.op.dom = d) →
      (∀ r s, rs r = some s → ∃ t ∈ F, t.row = r ∧ t.op.ran = s) →
      checkTriples ts (some ds) (some rs) = .error e →
      genuineErr F e := by
  intro ts
  induction ts with
  | nil => intro F ds rs e _ _ _ h; cases h
  | cons t ts ih =>
      intro F ds rs e hsub hinvD hinvR h
      have htF : t ∈ F := hsub t (List.mem_cons_self t ts)
      have hsub' : ∀ u ∈ ts, u ∈ F := fun u hu => hsub u (List.mem_cons_of_mem t hu)
      rw [checkTriples] at h
      split at h
      · rename_i e1 hds
        cases h
        obtain ⟨d, hd, hne, rfl⟩ := domStep_error_char hds
        left
        exact ⟨t.col, d, t.op.dom, rfl, hne, hinvD t.col d hd, ⟨t, htF, rfl, rfl⟩⟩
      · rename_i ds1o hds
        split at h
        · rename_i e1 hrs
          cases h
          obtain ⟨r, hr, hne, rfl⟩ := ranStep_error_char hrs
          right
          exact ⟨t.row, r, t.op.ran, rfl, hne, hinvR t.row r hr, ⟨t, htF, rfl, rfl⟩⟩
        · rename_i rs1o hrs
          obtain ⟨ds1, rfl, hset, hmono, hback⟩ := domStep_ok_char hds
          obtain ⟨rs1, rfl, hrset, hrmono, hrback⟩ := ranStep_ok_char hrs
          refine ih F ds1 rs1 e hsub' ?_ ?_ h
          · intro c d hc
            rcases hback c d hc with hold | ⟨rfl, rfl⟩
            · exact hinvD c d hold
            · exact ⟨t, htF, rfl, rfl⟩
          · intro r s hc
            rcases hrback r s hc with hold | ⟨rfl, rfl⟩
            · exact hinvR r s hold
            · exact ⟨t, htF, rfl, rfl⟩

/-- ConstantLineSearch: a numeric step length wrapped as a line-search
strategy that always returns the constant. -/
def constantLineSearch {V : Type} (c : ℚ) : V → V → ℚ → ℚ := fun _ _ _ => c

section Solvers

variable {V : Type} [AddCommGroup V] [Module ℚ V]

/-- Backward pass of _bfgs_multiply: the loop over i in
reversed(range(len(s))), carrying r and the two numpy arrays rhos and
alphas (zero-initialised, written at index i). The first argument k is
the number of indices still to process, so the call with k = n visits
n-1, n-2, ..., 0 in order. -/
def backLoop (ip : V → V → ℚ) (s y : List V) :
    Nat → V → V × (Nat → ℚ) × (Nat → ℚ)
  | 0, r => (r, fun _ => 0, fun _ => 0)
  | k + 1, r =>
      let yi := y.getD k 0
      let si := s.getD k 0
      let rho := 1 / ip yi si
      let alpha := rho * ip si r
      let res := backLoop ip s y k (r - alpha • yi)
      (res.1, Function.update res.2.1 k rho, Function.update res.2.2 k alpha)

/-- Forward pass of _bfgs_multiply: the loop over i in range(len(s));
the first argument is the current index i, the second the number of
indices still to process. -/
def fwdLoop (ip : V → V → ℚ) (s y : List V) (rhos alphas : Nat → ℚ) :
    Nat → Nat → V → V
  | _, 0, r => r
  | i, k + 1, r =>
      let beta := rhos i * ip (y.getD i 0) r
      fwdLoop ip s y rhos alphas (i + 1) k (r + (alphas i - beta) • s.getD i 0)

/-- _bfgs_multiply: computes the action of the implicit approximate
inverse Hessian on x from the stored coefficient lists s and y, applying
the optional initial estimate between the two passes. -/
def bfgsMultiply (ip : V → V → ℚ) (s y : List V) (x : V)
    (hessinvEstimate : Option (V → V)) : V :=
  let res := backLoop ip s y s.length x
  let r1 := match hessinvEstimate with
    | none => res.1
    | some hf => hf res.1
  fwdLoop ip s y res.2.1 res.2.2 0 s.length r1

/-- Modelled from the spec: the backward pass of the two-loop recursion,
iterating over the stored (s_i, y_i) pairs from most recent to oldest;
for each pair it computes rho_i = 1/(y_i . s_i) and
alpha_i = rho_i (s_i . r), updates r to r - alpha_i y_i, and returns the
final r together with the (rho_i, alpha_i) list indexed like the input. -/
def specBackward (ip : V → V → ℚ) : List (V × V) → V → V × List (ℚ × ℚ)
  | [], r => (r, [])
  | p :: rest, r =>
      let res := specBackward ip rest r
      let rho := 1 / ip p.2 p.1
      let alpha := rho * ip p.1 res.1
      (res.1 - alpha • p.2, (rho, alpha) :: res.2)

/-- Modelled from the spec: the forward pass of the two-loop recursion,
iterating from oldest to newest; for each pair it computes
beta = rho_i (y_i . r) and updates r to r + (alpha_i - beta) s_i. -/
def specForward (ip : V → V → ℚ) : List (V × V) → List (ℚ × ℚ) → V → V
  | p :: rest, ra :: ras, r =>
      let beta := ra.1 * ip p.2 r
      specForward ip rest ras (r + (ra.2 - beta) • p.1)
  | _, _, r => r

/-- Modelled from the spec: the full two-loop recursion applied to x,
with the optional initial inverse-Hessian estimate applied between the
backward and the forward pass (identity when absent). -/
def specTwoLoop (ip : V → V → ℚ) (s y : List V) (x : V)
    (hessinvEstimate : Option (V → V)) : V :=
  let res := specBackward ip (s.zip y) x
  let r1 := match hessinvEstimate with
    | none => res.1
    | some hf => hf res.1
  specForward ip (s.zip y) res.2 r1

/-- The search direction of one bfgs_method iteration:
-_bfgs_multiply(ys, ss, grad_x, hessinv_estimate). In bfgs_method the
list passed as the s coefficients is the variable ys, which accumulates
the displacements x_update, and the list passed as the y coefficients is
the variable ss, which accumulates the gradient differences grad_diff. -/
def bfgsSearchDir (ip : V → V → ℚ) (ys ss : List V) (gradx : V)
    (hessinvEstimate : Option (V → V)) : V :=
  -(bfgsMultiply ip ys ss gradx hessinvEstimate)

/-- Python list slicing l[-m:] as used to truncate the BFGS history:
the last m elements for positive m, the whole list for m = 0. -/
def pyLastSlice {α : Type} (m : Nat) (l : List α) : List α :=
  if m = 0 then l else l.drop (l.length - m)

/-- History truncation of bfgs_method: ss = ss[-maxcor:] when maxcor is
given, no truncation when it is None. -/
def truncHist {α : Type} (maxcor : Option Nat) (l : List α) : List α :=
  match maxcor with
  | none => l
  | some m => pyLastSlice m l

/-- State threaded through the bfgs_method loop. x and gradx are the
iterate and its gradient; ys holds the appended displacements and ss the
appended gradient differences, truncated per maxcor; cbLog records the
callback invocations, and appS/appY record every appended pair without
truncation (pure observation channels: nothing reads them). -/
structure BfgsState (V : Type) where
  x : V
  gradx : V
  ys : List V
  ss : List V
  cbLog : List V
  appS : List V
  appY : List V

/-- The for-loop of bfgs_method with the given remaining iteration
count: compute the search direction by the two-loop recursion, stop when
the directional derivative is strictly below tol in magnitude, otherwise
take the line-search step, and stop after the step when the curvature
inner product y_inner_s is strictly below tol in magnitude (without
appending and without invoking the callback); otherwise append the pair,
truncate the history and invoke the callback. -/
def bfgsLoop (grad : V → V) (ip : V → V → ℚ) (ls : V → V → ℚ → ℚ)
    (tol : ℚ) (maxcor : Option Nat) (hessinvEstimate : Option (V → V)) :
    Nat → BfgsState V → BfgsState V
  | 0, st => st
  | fuel + 1, st =>
      let sd := bfgsSearchDir ip st.ys st.ss st.gradx hessinvEstimate
      let dd := ip sd st.gradx
      if |dd| < tol then st
      else
        let step := ls st.x sd dd
        let xUpd := step • sd
        let x1 := st.x + xUpd
        let gx1 := grad x1
        let gdiff := gx1 - st.gradx
        if |ip gdiff xUpd| < tol then { st with x := x1, gradx := gx1 }
        else
          bfgsLoop grad ip ls tol maxcor hessinvEstimate fuel
            { x := x1, gradx := gx1,
              ys := truncHist maxcor (st.ys ++ [xUpd]),
              ss := truncHist maxcor (st.ss ++ [gdiff]),
              cbLog := st.cbLog ++ [x1],
              appS := st.appS ++ [gdiff],
              appY := st.appY ++ [xUpd] }

/-- bfgs_method entry point: the start point must lie in the gradient
domain (modelled by a membership test), then the loop runs for maxiter
iterations from an empty correction history. -/
def bfgsMethod (domMem : V → Bool) (grad : V → V) (ip : V → V → ℚ)
    (ls : V → V → ℚ → ℚ) (tol : ℚ) (maxcor : Option Nat)
    (hessinvEstimate : Option (V → V)) (maxiter : Nat) (x0 : V) :
    Except String (BfgsState V) :=
  if domMem x0 then
    .ok (bfgsLoop grad ip ls tol maxcor hessinvEstimate maxiter
      ⟨x0, grad x0, [], [], [], [], []⟩)
  else .error "x not in the domain of grad"

/-- State threaded through the newtons_method loop. -/
structure NewtonState (V : Type) where
  x : V
  cbLog : List V

/-- The for-loop of newtons_method: the search direction solves the
Newton system via the external conjugate-gradient routine cg started
from the zero element, and the loop stops when the directional
derivative is less than or equal to tol in magnitude. -/
def newtonLoop (grad : V → V) (deriv : V → V → V) (cg : (V → V) → V → V → Nat → V)
    (ip : V → V → ℚ) (ls : V → V → ℚ → ℚ) (tol : ℚ) (cgIter : Nat) :
    Nat → NewtonState V → NewtonState V
  | 0, st => st
  | fuel + 1, st =>
      let sd0 : V := 0
      let hessian := deriv st.x
      let derivInPoint := grad st.x
      let sd := cg hessian sd0 (-derivInPoint) cgIter
      let dd := ip sd derivInPoint
      if |dd| ≤ tol then st
      else
        let step := ls st.x sd dd
        let x1 := st.x + step • sd
        newtonLoop grad deriv cg ip ls tol cgIter fuel ⟨x1, st.cbLog ++ [x1]⟩

/-- newtons_method entry point. -/
def newtonsMethod (domMem : V → Bool) (grad : V → V) (deriv : V → V → V)
    (cg : (V → V) → V → V → Nat → V) (ip : V → V → ℚ) (ls : V → V → ℚ → ℚ)
    (tol : ℚ) (cgIter : Nat) (maxiter : Nat) (x0 : V) :
    Except String (NewtonState V) :=
  if domMem x0 then
    .ok (newtonLoop grad deriv cg ip ls tol cgIter maxiter ⟨x0, []⟩)
  else .error "x not in the domain of f"

/-- State threaded through the broydens_method loop: the approximate
inverse Hessian is an explicit operator, rebuilt as a rank-one-updated
composition each iteration. -/
structure BroydenState (V : Type) where
  x : V
  gradx : V
  hess : V → V
  cbLog : List V

/-- The for-loop of broydens_method. The hessian update is guarded on
the impl string: "first" composes (I + u dxT) with hess, "second" adds
u dgT to hess, and any other string performs no update; in every
non-terminating iteration x is updated and the callback is invoked. -/
def broydenLoop (grad : V → V) (ip : V → V → ℚ) (ls : V → V → ℚ → ℚ)
    (impl : String) (tol : ℚ) : Nat → BroydenState V → BroydenState V
  | 0, st => st
  | fuel + 1, st =>
      let sd := -(st.hess st.gradx)
      let dd := ip sd st.gradx
      if |dd| < tol then st
      else
        let step := ls st.x sd dd
        let deltaX := step • sd
        let x1 := st.x + deltaX
        let gx1 := grad x1
        let deltaGrad := gx1 - st.gradx
        let v := st.hess deltaGrad
        if impl = "first" then
          let divisor := ip deltaX v
          if |divisor| < tol then { st with x := x1, gradx := gx1 }
          else
            let u := (1 / divisor) • (sd - v)
            let hess1 := fun w => st.hess w + ip deltaX (st.hess w) • u
            broydenLoop grad ip ls impl tol fuel
              ⟨x1, gx1, hess1, st.cbLog ++ [x1]⟩
        else if impl = "second" then
          let divisor := ip deltaGrad deltaGrad
          if |divisor| < tol then { st with x := x1, gradx := gx1 }
          else
            let u := (1 / divisor) • (sd - v)
            let hess1 := fun w => st.hess w + ip deltaGrad w • u
            broydenLoop grad ip ls impl tol fuel
              ⟨x1, gx1, hess1, st.cbLog ++ [x1]⟩
        else
          broydenLoop grad ip ls impl tol fuel
            ⟨x1, gx1, st.hess, st.cbLog ++ [x1]⟩

/-- broydens_method entry point: the approximate Hessian starts as the
identity operator. -/
def broydensMethod (domMem : V → Bool) (grad : V → V) (ip : V → V → ℚ)
    (ls : V → V → ℚ → ℚ) (impl : String) (tol : ℚ) (maxiter : Nat) (x0 : V) :
    Except String (BroydenState V) :=
  if domMem x0 then
    .ok (broydenLoop grad ip ls impl tol maxiter ⟨x0, grad x0, fun w => w, []⟩)
  else .error "x not in the domain of grad"

theorem specBackward_length (ip : V → V → ℚ) :
    ∀ (l : List (V × V)) (r : V), (specBackward ip l r).2.length = l.length := by
  intro l
  induction l with
  | nil => intro r; rfl
  | cons p rest ih => intro r; simp [specBackward, ih]

theorem specBackward_append (ip : V → V → ℚ) :
    ∀ (l : List (V × V)) (p : V × V) (r : V),
      specBackward ip (l ++ [p]) r =
        ((specBackward ip l (r - (1 / ip p.2 p.1 * ip p.1 r) • p.2)).1,
         (specBackward ip l (r - (1 / ip p.2 p.1 * ip p.1 r) • p.2)).2 ++
           [(1 / ip p.2 p.1, 1 / ip p.2 p.1 * ip p.1 r)]) := by
  intro l
  induction l with
  | nil => intro p r; simp [specBackward]
  | cons q rest ih =>
      intro p r
      rw [List.cons_append]
      simp only [specBackward]
      rw [ih p r]
      rfl

theorem backLoop_spec (ip : V → V → ℚ) (s y : List V) :
    ∀ (k : Nat), k ≤ s.length → k ≤ y.length → ∀ (r : V),
      (backLoop ip s y k r).1 = (specBackward ip ((s.zip y).take k) r).1 ∧
      ∀ i, i < k →
        (backLoop ip s y k r).2.1 i =
          ((specBackward ip ((s.zip y).take k) r).2.getD i (0, 0)).1 ∧
        (backLoop ip s y k r).2.2 i =
          ((specBackward ip ((s.zip y).take k) r).2.getD i (0, 0)).2 := by
  intro k
  induction k with
  | zero =>
      intro _ _ r
      exact ⟨rfl, fun i hi => absurd hi (Nat.not_lt_zero i)⟩
  | succ k ih =>
      intro hks hky r
      have hs : k < s.length := hks
      have hy : k < y.length := hky
      have hkz : k < (s.zip y).length := by
        rw [List.length_zip]
        exact lt_min hs hy
      have htake : (s.zip y).take (k + 1) =
          (s.zip y).take k ++ [(s.getD k 0, y.getD k 0)] := by
        rw [List.take_succ, List.getElem?_eq_getElem hkz]
        have hz : (s.zip y)[k] = (s[k], y[k]) := List.getElem_zip ..
        rw [hz, List.getD_eq_getElem s 0 hs, List.getD_eq_getElem y 0 hy]
        rfl
      have hlenB : ∀ (r1 : V),
          (specBackward ip ((s.zip y).take k) r1).2.length = k := by
        intro r1
        rw [specBackward_length, List.length_take]
        exact Nat.min_eq_left (le_of_lt hkz)
      have happ : ∀ (L : List (ℚ × ℚ)) (q : ℚ × ℚ) (i : Nat), L.length = k → i < k →
          (L ++ [q]).getD i (0, 0) = L.getD i (0, 0) := by
        intro L q i hL hik
        exact List.getD_append _ _ _ _ (by omega)
      have happ2 : ∀ (L : List (ℚ × ℚ)) (q : ℚ × ℚ), L.length = k →
          (L ++ [q]).getD k (0, 0) = q := by
        intro L q hL
        rw [List.getD_append_right _ _ _ _ (by omega)]
        rw [hL]
        simp
      rw [htake]
      simp only [backLoop, specBackward_append]
      constructor
      · exact (ih (le_of_lt hks) (le_of_lt hky) _).1
      · intro i hi
        rcases Nat.lt_succ_iff_lt_or_eq.mp hi with hik | hik
        · have hne : i ≠ k := Nat.ne_of_lt hik
          rw [Function.update_noteq hne, Function.update_noteq hne]
          rw [happ _ _ _ (hlenB _) hik]
          exact (ih (le_of_lt hks) (le_of_lt hky) _).2 i hik
        · subst hik
          rw [Function.update_same, Function.update_same]
          rw [happ2 _ _ (hlenB _)]
          exact ⟨rfl, rfl⟩

theorem fwdLoop_spec (ip : V → V → ℚ) (s y : List V) (rhos alphas : Nat → ℚ)
    (ras : List (ℚ × ℚ)) :
    ∀ (k i0 : Nat) (r : V),
      i0 + k ≤ s.length → i0 + k ≤ y.length → i0 + k ≤ ras.length →
      (∀ j, i0 ≤ j → j < i0 + k →
        rhos j = (ras.getD j (0, 0)).1 ∧ alphas j = (ras.getD j (0, 0)).2) →
      fwdLoop ip s y rhos alphas i0 k r =
        specForward ip (((s.zip y).drop i0).take k) ((ras.drop i0).take k) r := by
  intro k
  induction k with
  | zero => intro i0 r _ _ _ _; simp [fwdLoop, specForward]
  | succ k ih =>
      intro i0 r hs hy hras hco
      have hi0s : i0 < s.length := by omega
      have hi0y : i0 < y.length := by omega
      have hi0z : i0 < (s.zip y).length := by
        rw [List.length_zip]; exact lt_min hi0s hi0y
      have hi0r : i0 < ras.length := by omega
      have hdz : (s.zip y).drop i0 = (s[i0], y[i0]) :: (s.zip y).drop (i0 + 1) := by
        rw [List.drop_eq_getElem_cons hi0z]
        congr 1
        exact List.getElem_zip ..
      have hdr : ras.drop i0 = ras[i0] :: ras.drop (i0 + 1) :=
        List.drop_eq_getElem_cons hi0r
      rw [hdz, hdr, List.take_succ_cons, List.take_succ_cons]
      simp only [fwdLoop, specForward]
      have hj := hco i0 (le_refl i0) (by omega)
      have hgd : ras.getD i0 (0, 0) = ras[i0] := List.getD_eq_getElem ras (0, 0) hi0r
      rw [hgd] at hj
      have hsg : s.getD i0 0 = s[i0] := List.getD_eq_getElem s 0 hi0s
      have hyg : y.getD i0 0 = y[i0] := List.getD_eq_getElem y 0 hi0y
      rw [hsg, hyg, hj.1, hj.2]
      exact ih (i0 + 1) _ (by omega) (by omega) (by omega)
        (fun j h1 h2 => hco j (by omega) (by omega))

theorem bfgsMultiply_spec (ip : V → V → ℚ) (s y : List V)
    (hlen : s.length = y.length) (x : V) (hessinvEstimate : Option (V → V)) :
    bfgsMultiply ip s y x hessinvEstimate = specTwoLoop ip s y x hessinvEstimate := by
  have hzlen : (s.zip y).length = s.length := by
    rw [List.length_zip, hlen, Nat.min_self]
  have htake : (s.zip y).take s.length = s.zip y := by
    rw [← hzlen, List.take_length]
  have hb := backLoop_spec ip s y s.length (le_refl _) (le_of_eq hlen) x
  rw [htake] at hb
  have hraslen : (specBackward ip (s.zip y) x).2.length = s.length := by
    rw [specBackward_length, hzlen]
  simp only [bfgsMultiply, specTwoLoop]
  rw [hb.1]
  have hfwd := fwdLoop_spec ip s y
    (backLoop ip s y s.length x).2.1 (backLoop ip s y s.length x).2.2
    (specBackward ip (s.zip y) x).2 s.length 0
  rw [List.drop_zero, List.drop_zero, htake] at hfwd
  have htakeras : (specBackward ip (s.zip y) x).2.take s.length =
      (specBackward ip (s.zip y) x).2 := by
    rw [← hraslen, List.take_length]
  rw [htakeras] at hfwd
  cases hessinvEstimate with
  | none =>
      exact hfwd _ (by omega) (by omega) (by omega)
        (fun j h1 h2 => hb.2 j (by omega))
  | some hf =>
      exact hfwd _ (by omega) (by omega) (by omega)
        (fun j h1 h2 => hb.2 j (by omega))

/-- Length bound of the history slice for a positive bound. -/
theorem pyLastSlice_length_le {α : Type} (m : Nat) (hm : 0 < m) (l : List α) :
    (pyLastSlice m l).length ≤ m := by
  have hm0 : m ≠ 0 := Nat.pos_iff_ne_zero.mp hm
  simp only [pyLastSlice, if_neg hm0]
  rw [List.length_drop]
  omega

/-- Re-slicing after one append agrees with slicing the full history:
the truncated history of bfgs_method stays the suffix of the untruncated
one. -/
theorem pyLastSlice_append_one {α : Type} (m : Nat) (hm : 0 < m) (A : List α) (a : α) :
    pyLastSlice m (pyLastSlice m A ++ [a]) = pyLastSlice m (A ++ [a]) := by
  have hm0 : m ≠ 0 := Nat.pos_iff_ne_zero.mp hm
  simp only [pyLastSlice, if_neg hm0]
  rcases Nat.lt_or_ge A.length m with hc | hc
  · have h0 : A.length - m = 0 := by omega
    rw [h0, List.drop_zero]
  · have hlenA1 : (A.drop (A.length - m)).length = m := by
      rw [List.length_drop]; omega
    have h1 : (A.drop (A.length - m) ++ [a]).length - m = 1 := by
      rw [List.length_append, hlenA1]; simp
    rw [h1]
    have h2 : (A ++ [a]).length - m = (A.length - m) + 1 := by
      rw [List.length_append]; simp; omega
    rw [h2]
    rw [List.drop_append_of_le_length (by rw [hlenA1]; exact hm)]
    rw [List.drop_append_of_le_length (by omega)]
    rw [List.drop_drop]

/-- The search direction of one iteration of the bfgs_method loop from a
given state. -/
def bfgsDir (ip : V → V → ℚ) (hessinvEstimate : Option (V → V)) (st : BfgsState V) : V :=
  bfgsSearchDir ip st.ys st.ss st.gradx hessinvEstimate

/-- The directional derivative dd of one bfgs_method iteration. -/
def bfgsDD (ip : V → V → ℚ) (hessinvEstimate : Option (V → V)) (st : BfgsState V) : ℚ :=
  ip (bfgsDir ip hessinvEstimate st) st.gradx

/-- The line-search step of one bfgs_method iteration. -/
def bfgsStep (ip : V → V → ℚ) (ls : V → V → ℚ → ℚ)
    (hessinvEstimate : Option (V → V)) (st : BfgsState V) : ℚ :=
  ls st.x (bfgsDir ip hessinvEstimate st) (bfgsDD ip hessinvEstimate st)

/-- The x_update of one bfgs_method iteration. -/
def bfgsXUpd (ip : V → V → ℚ) (ls : V → V → ℚ → ℚ)
    (hessinvEstimate : Option (V → V)) (st : BfgsState V) : V :=
  bfgsStep ip ls hessinvEstimate st • bfgsDir ip hessinvEstimate st

/-- The updated iterate of one bfgs_method iteration. -/
def bfgsX1 (ip : V → V → ℚ) (ls : V → V → ℚ → ℚ)
    (hessinvEstimate : Option (V → V)) (st : BfgsState V) : V :=
  st.x + bfgsXUpd ip ls hessinvEstimate st

/-- The gradient difference of one bfgs_method iteration. -/
def bfgsGdiff (grad : V → V) (ip : V → V → ℚ) (ls : V → V → ℚ → ℚ)
    (hessinvEstimate : Option (V → V)) (st : BfgsState V) : V :=
  grad (bfgsX1 ip ls hessinvEstimate st) - st.gradx

/-- The curvature inner product y_inner_s of one bfgs_method iteration. -/
def bfgsCurv (grad : V → V) (ip : V → V → ℚ) (ls : V → V → ℚ → ℚ)
    (hessinvEstimate : Option (V → V)) (st : BfgsState V) : ℚ :=
  ip (bfgsGdiff grad ip ls hessinvEstimate st) (bfgsXUpd ip ls hessinvEstimate st)

/-- The successor state of a full (non-terminating) bfgs_method
iteration. -/
def bfgsNext (grad : V → V) (ip : V → V → ℚ) (ls : V → V → ℚ → ℚ)
    (maxcor : Option Nat) (hessinvEstimate : Option (V → V))
    (st : BfgsState V) : BfgsState V :=
  { x := bfgsX1 ip ls hessinvEstimate st,
    gradx := grad (bfgsX1 ip ls hessinvEstimate st),
    ys := truncHist maxcor (st.ys ++ [bfgsXUpd ip ls hessinvEstimate st]),
    ss := truncHist maxcor (st.ss ++ [bfgsGdiff grad ip ls hessinvEstimate st]),
    cbLog := st.cbLog ++ [bfgsX1 ip ls hessinvEstimate st],
    appS := st.appS ++ [bfgsGdiff grad ip ls hessinvEstimate st],
    appY := st.appY ++ [bfgsXUpd ip ls hessinvEstimate st] }

/-- One unfolding of the bfgs_method loop, phrased with the named
per-iteration quantities. -/
theorem bfgsLoop_succ (grad : V → V) (ip : V → V → ℚ) (ls : V → V → ℚ → ℚ)
    (tol : ℚ) (maxcor : Option Nat) (hessinvEstimate : Option (V → V))
    (fuel : Nat) (st : BfgsState V) :
    bfgsLoop grad ip ls tol maxcor hessinvEstimate (fuel + 1) st =
      if |bfgsDD ip hessinvEstimate st| < tol then st
      else if |bfgsCurv grad ip ls hessinvEstimate st| < tol then
        { st with x := bfgsX1 ip ls hessinvEstimate st,
                  gradx := grad (bfgsX1 ip ls hessinvEstimate st) }
      else bfgsLoop grad ip ls tol maxcor hessinvEstimate fuel
        (bfgsNext grad ip ls maxcor hessinvEstimate st) := rfl

/-- The search direction of one newtons_method iteration: the external
conjugate-gradient solve of the Newton system from the zero start. -/
def newtDir (grad : V → V) (deriv : V → V → V) (cg : (V → V) → V → V → Nat → V)
    (cgIter : Nat) (st : NewtonState V) : V :=
  cg (deriv st.x) 0 (-(grad st.x)) cgIter

/-- The directional derivative of one newtons_method iteration. -/
def newtDD (grad : V → V) (deriv : V → V → V) (cg : (V → V) → V → V → Nat → V)
    (ip : V → V → ℚ) (cgIter : Nat) (st : NewtonState V) : ℚ :=
  ip (newtDir grad deriv cg cgIter st) (grad st.x)

/-- The updated iterate of one newtons_method iteration. -/
def newtX1 (grad : V → V) (deriv : V → V → V) (cg : (V → V) → V → V → Nat → V)
    (ip : V → V → ℚ) (ls : V → V → ℚ → ℚ) (cgIter : Nat) (st : NewtonState V) : V :=
  st.x + ls st.x (newtDir grad deriv cg cgIter st) (newtDD grad deriv cg ip cgIter st) •
    newtDir grad deriv cg cgIter st

/-- One unfolding of the newtons_method loop. -/
theorem newtonLoop_succ (grad : V → V) (deriv : V → V → V)
    (cg : (V → V) → V → V → Nat → V) (ip : V → V → ℚ) (ls : V → V → ℚ → ℚ)
    (tol : ℚ) (cgIter : Nat) (fuel : Nat) (st : NewtonState V) :
    newtonLoop grad deriv cg ip ls tol cgIter (fuel + 1) st =
      if |newtDD grad deriv cg ip cgIter st| ≤ tol then st
      else newtonLoop grad deriv cg ip ls tol cgIter fuel
        ⟨newtX1 grad deriv cg ip ls cgIter st,
         st.cbLog ++ [newtX1 grad deriv cg ip ls cgIter st]⟩ := rfl

/-- The search direction of one broydens_method iteration. -/
def broyDir (st : BroydenState V) : V := -(st.hess st.gradx)

/-- The directional derivative of one broydens_method iteration. -/
def broyDD (ip : V → V → ℚ) (st : BroydenState V) : ℚ :=
  ip (broyDir st) st.gradx

/-- The delta_x of one broydens_method iteration. -/
def broyDeltaX (ip : V → V → ℚ) (ls : V → V → ℚ → ℚ) (st : BroydenState V) : V :=
  ls st.x (broyDir st) (broyDD ip st) • broyDir st

/-- The updated iterate of one broydens_method iteration. -/
def broyX1 (ip : V → V → ℚ) (ls : V → V → ℚ → ℚ) (st : BroydenState V) : V :=
  st.x + broyDeltaX ip ls st

/-- The gradient difference of one broydens_method iteration. -/
def broyDeltaGrad (grad : V → V) (ip : V → V → ℚ) (ls : V → V → ℚ → ℚ)
    (st : BroydenState V) : V :=
  grad (broyX1 ip ls st) - st.gradx

/-- The vector v = hess(delta_grad) of one broydens_method iteration. -/
def broyV (grad : V → V) (ip : V → V → ℚ) (ls : V → V → ℚ → ℚ)
    (st : BroydenState V) : V :=
  st.hess (broyDeltaGrad grad ip ls st)

/-- The divisor of the first (good) Broyden update. -/
def broyDiv1 (grad : V → V) (ip : V → V → ℚ) (ls : V → V → ℚ → ℚ)
    (st : BroydenState V) : ℚ :=
  ip (broyDeltaX ip ls st) (broyV grad ip ls st)

/-- The divisor of the second (bad) Broyden update. -/
def broyDiv2 (grad : V → V) (ip : V → V → ℚ) (ls : V → V → ℚ → ℚ)
    (st : BroydenState V) : ℚ :=
  ip (broyDeltaGrad grad ip ls st) (broyDeltaGrad grad ip ls st)

/-- The rebuilt approximate Hessian of the first Broyden variant. -/
def broyHess1 (grad : V → V) (ip : V → V → ℚ) (ls : V → V → ℚ → ℚ)
    (st : BroydenState V) : V → V :=
  fun w => st.hess w + ip (broyDeltaX ip ls st) (st.hess w) •
    ((1 / broyDiv1 grad ip ls st) • (broyDir st - broyV grad ip ls st))

/-- The rebuilt approximate Hessian of the second Broyden variant. -/
def broyHess2 (grad : V → V) (ip : V → V → ℚ) (ls : V → V → ℚ → ℚ)
    (st : BroydenState V) : V → V :=
  fun w => st.hess w + ip (broyDeltaGrad grad ip ls st) w •
    ((1 / broyDiv2 grad ip ls st) • (broyDir st - broyV grad ip ls st))

/-- One unfolding of the broydens_method loop. -/
theorem broydenLoop_succ (grad : V → V) (ip : V → V → ℚ) (ls : V → V → ℚ → ℚ)
    (impl : String) (tol : ℚ) (fuel : Nat) (st : BroydenState V) :
    broydenLoop grad ip ls impl tol (fuel + 1) st =
      if |broyDD ip st| < tol then st
      else if impl = "first" then
        (if |broyDiv1 grad ip ls st| < tol then
          { st with x := broyX1 ip ls st, gradx := grad (broyX1 ip ls st) }
        else broydenLoop grad ip ls impl tol fuel
          ⟨broyX1 ip ls st, grad (broyX1 ip ls st), broyHess1 grad ip ls st,
           st.cbLog ++ [broyX1 ip ls st]⟩)
      else if impl = "second" then
        (if |broyDiv2 grad ip ls st| < tol then
          { st with x := broyX1 ip ls st, gradx := grad (broyX1 ip ls st) }
        else broydenLoop grad ip ls impl tol fuel
          ⟨broyX1 ip ls st, grad (broyX1 ip ls st), broyHess2 grad ip ls st,
           st.cbLog ++ [broyX1 ip ls st]⟩)
      else broydenLoop grad ip ls impl tol fuel
        ⟨broyX1 ip ls st, grad (broyX1 ip ls st), st.hess,
         st.cbLog ++ [broyX1 ip ls st]⟩ := rfl

end Solvers




/-- C1 (code defect): supplying an explicit dom or ran product space to
ProductSpaceOperator.__init__ together with at least one stored operator
makes the consistency loop read the local domains (resp. ranges) list,
which is only ever assigned when dom (resp. ran) is omitted; construction
therefore fails with UnboundLocalError instead of succeeding with the
supplied spaces used verbatim. -/
theorem psInit_explicit_dom_ran_unbound {V : Type}
    (grid : List (List (Option (POp V)))) (dom ran : Option (List Space))
    (hsome : dom.isSome = true ∨ ran.isSome = true)
    (hne : gridTriples grid ≠ []) :
    psInit grid dom ran = .error .unboundLocal := by
  obtain ⟨t, ts2, hts⟩ := List.exists_cons_of_ne_nil hne
  rcases dom with _ | D
  · rcases ran with _ | Rr
    · simp at hsome
    · show psInitPost grid.length (grid.headD []).length
        ((gridTriples grid).all fun u => u.op.linear) none (some Rr)
        (checkTriples (gridTriples grid) (some fun _ => none) none) =
          .error .unboundLocal
      rw [hts]
      rfl
  · show psInitPost grid.length (grid.headD []).length
      ((gridTriples grid).all fun u => u.op.linear) (some D) ran
      (checkTriples (gridTriples grid) none
        (if ran.isSome then none else some fun _ => none)) =
        .error .unboundLocal
    rw [hts]
    rfl

/-- Witness for C1: a one-by-one grid holding one identity-like operator
with both product spaces supplied explicitly crashes with
UnboundLocalError. -/
theorem psInit_explicit_dom_ran_unbound_witness :
    ((some [0] : Option (List Space)).isSome = true ∨
      (some [0] : Option (List Space)).isSome = true) ∧
    gridTriples [[some (⟨0, 0, true, fun v => v⟩ : POp ℚ)]] ≠ [] ∧
    psInit [[some (⟨0, 0, true, fun v => v⟩ : POp ℚ)]] (some [0]) (some [0]) =
      .error .unboundLocal := by
  have hne : gridTriples [[some (⟨0, 0, true, fun v => v⟩ : POp ℚ)]] ≠ [] := by
    show (⟨0, 0, ⟨0, 0, true, fun v => v⟩⟩ : PTriple ℚ) :: [] ≠ []
    exact List.cons_ne_nil _ _
  exact ⟨Or.inl rfl, hne,
    psInit_explicit_dom_ran_unbound _ (some [0]) (some [0]) (Or.inl rfl) hne⟩

/-- C3: the in-place evaluation of the block operator leaves every output
row below the range size fully defined regardless of the incoming
contents of out: each row holds the accumulated sum of its blocks (zero
when the row has none), which is exactly what the out-of-place
evaluation returns. -/
theorem psApply_fully_defined {V : Type} [AddCommMonoid V] (R : Nat)
    (ts : List (PTriple V)) (x out : Nat → V) (i : Nat) (hi : i < R) :
    psApply R ts x out i = rowSum ts x i ∧
    psApply R ts x out i = psCall ts x i := by
  have hmain : psApply R ts x out i = rowSum ts x i := by
    have h1 : psApply R ts x out i =
        zeroFill R (applyLoop x ts out fun _ => false).1
          (applyLoop x ts out fun _ => false).2 i := rfl
    rw [h1, zeroFill_eq, applyLoop_ev, applyLoop_out]
    by_cases hany : ∃ u ∈ ts, u.row = i
    · have hb : (ts.any fun t => t.row == i) = true := by
        obtain ⟨u, hu, he⟩ := hany
        exact List.any_eq_true.mpr ⟨u, hu, by simpa using he⟩
      simp [hb, hany]
    · have hb : (ts.any fun t => t.row == i) = false := by
        rw [List.any_eq_false]
        intro u hu
        simpa using fun he => hany ⟨u, hu, he⟩
      have hz : rowSum ts x i = 0 :=
        rowSum_eq_zero _ _ _ fun u hu he => hany ⟨u, hu, he⟩
      simp [hb, hany, hi, hz]
  exact ⟨hmain, by rw [hmain, psCall_eq_rowSum]⟩

/-- Witness for C3: a two-row range with a single block in row 0, read at
row 1, which ends zero despite nonzero incoming contents. -/
theorem psApply_fully_defined_witness :
    1 < 2 ∧
    psApply 2 [⟨0, 0, (⟨0, 0, true, fun v => v + v⟩ : POp ℚ)⟩]
        (fun _ => 3) (fun _ => 7) 1 =
      rowSum [⟨0, 0, (⟨0, 0, true, fun v => v + v⟩ : POp ℚ)⟩] (fun _ => 3) 1 ∧
    psApply 2 [⟨0, 0, (⟨0, 0, true, fun v => v + v⟩ : POp ℚ)⟩]
        (fun _ => 3) (fun _ => 7) 1 =
      psCall [⟨0, 0, (⟨0, 0, true, fun v => v + v⟩ : POp ℚ)⟩] (fun _ => 3) 1 := by
  refine ⟨by norm_num, ?_, ?_⟩
  · exact (psApply_fully_defined 2 _ _ _ 1 (by norm_num)).1
  · exact (psApply_fully_defined 2 _ _ _ 1 (by norm_num)).2

/-- C7: the out-of-place evaluation of the block operator returns, in
component i, the sum over the present blocks of row i applied to the
matching input components, and the zero element for a row with no
present block. -/
theorem psCall_components {V : Type} [AddCommMonoid V] (ts : List (PTriple V))
    (x : Nat → V) (i : Nat) :
    psCall ts x i = rowSum ts x i ∧
    ((∀ u ∈ ts, u.row ≠ i) → psCall ts x i = 0) :=
  ⟨psCall_eq_rowSum ts x i,
   fun h => by rw [psCall_eq_rowSum]; exact rowSum_eq_zero ts x i h⟩

/-- Witness for C7: with no stored blocks every component is zero. -/
theorem psCall_components_witness :
    (∀ u ∈ ([] : List (PTriple ℚ)), u.row ≠ 1) ∧
    psCall ([] : List (PTriple ℚ)) (fun _ => 1) 1 = 0 :=
  ⟨fun u hu => absurd hu (List.not_mem_nil u),
   (psCall_components ([] : List (PTriple ℚ)) (fun _ => 1) 1).2
     fun u hu => absurd hu (List.not_mem_nil u)⟩

/-- C8: the double adjoint of a component projection is observationally
equivalent to the original projection: same domain, same range, and the
same action on every element. -/
theorem compProj_adjoint_adjoint (p : CompProj) :
    p.adjoint.adjoint.domainS = p.domainS ∧
    p.adjoint.adjoint.rangeS = p.rangeS ∧
    ∀ (x : Nat → ℚ), p.adjoint.adjoint.callF x = p.callF x :=
  ⟨rfl, rfl, fun _ => rfl⟩

/-- C9: building a ProductSpaceOperator without explicit dom/ran from a
grid holding two operators in one column with different domains, or two
operators in one row with different ranges, fails with a ValueError that
names an offending column (resp. row) together with two genuinely
conflicting spaces of operators stored there. -/
theorem psInit_inconsistent_error {V : Type} (grid : List (List (Option (POp V))))
    (hconf : ∃ t1 ∈ gridTriples grid, ∃ t2 ∈ gridTriples grid,
      (t1.col = t2.col ∧ t1.op.dom ≠ t2.op.dom) ∨
      (t1.row = t2.row ∧ t1.op.ran ≠ t2.op.ran)) :
    ∃ e, psInit grid none none = .error e ∧ genuineErr (gridTriples grid) e := by
  rcases hres : checkTriples (gridTriples grid) (some fun _ => none) (some fun _ => none)
    with e | out
  · refine ⟨e, ?_, ?_⟩
    · show psInitPost grid.length (grid.headD []).length
        ((gridTriples grid).all fun u => u.op.linear) none none
        (checkTriples (gridTriples grid) (some fun _ => none) (some fun _ => none)) =
          .error e
      rw [hres]
      rfl
    · exact checkTriples_error_genuine _ _ _ _ _ (fun u hu => hu)
        (fun c d h => Option.noConfusion h) (fun r s h => Option.noConfusion h) hres
  · exfalso
    obtain ⟨t1, h1, t2, h2, hcase⟩ := hconf
    have hp := checkTriples_ok_pairwise _ _ _ _ hres t1 h1 t2 h2
    rcases hcase with ⟨hc, hne⟩ | ⟨hr, hne⟩
    · exact hne (hp.1 hc)
    · exact hne (hp.2 hr)

/-- Witness for C9: a one-column grid whose two operators take domains 1
and 2. -/
theorem psInit_inconsistent_error_witness :
    (∃ t1 ∈ gridTriples [[some (⟨1, 5, true, fun v => v⟩ : POp ℚ)],
        [some (⟨2, 5, true, fun v => v⟩ : POp ℚ)]],
      ∃ t2 ∈ gridTriples [[some (⟨1, 5, true, fun v => v⟩ : POp ℚ)],
        [some (⟨2, 5, true, fun v => v⟩ : POp ℚ)]],
      (t1.col = t2.col ∧ t1.op.dom ≠ t2.op.dom) ∨
      (t1.row = t2.row ∧ t1.op.ran ≠ t2.op.ran)) ∧
    (∃ e, psInit [[some (⟨1, 5, true, fun v => v⟩ : POp ℚ)],
        [some (⟨2, 5, true, fun v => v⟩ : POp ℚ)]] none none = .error e ∧
      genuineErr (gridTriples [[some (⟨1, 5, true, fun v => v⟩ : POp ℚ)],
        [some (⟨2, 5, true, fun v => v⟩ : POp ℚ)]]) e) := by
  have hgrid : gridTriples [[some (⟨1, 5, true, fun v => v⟩ : POp ℚ)],
      [some (⟨2, 5, true, fun v => v⟩ : POp ℚ)]] =
      [⟨0, 0, ⟨1, 5, true, fun v => v⟩⟩, ⟨1, 0, ⟨2, 5, true, fun v => v⟩⟩] := rfl
  have hconf : ∃ t1 ∈ gridTriples [[some (⟨1, 5, true, fun v => v⟩ : POp ℚ)],
      [some (⟨2, 5, true, fun v => v⟩ : POp ℚ)]],
      ∃ t2 ∈ gridTriples [[some (⟨1, 5, true, fun v => v⟩ : POp ℚ)],
        [some (⟨2, 5, true, fun v => v⟩ : POp ℚ)]],
      (t1.col = t2.col ∧ t1.op.dom ≠ t2.op.dom) ∨
      (t1.row = t2.row ∧ t1.op.ran ≠ t2.op.ran) := by
    refine ⟨⟨0, 0, ⟨1, 5, true, fun v => v⟩⟩, ?_,
      ⟨1, 0, ⟨2, 5, true, fun v => v⟩⟩, ?_, Or.inl ⟨rfl, by norm_num⟩⟩
    · rw [hgrid]; exact List.mem_cons_self _ _
    · rw [hgrid]; exact List.mem_cons_of_mem _ (List.mem_cons_self _ _)
  exact ⟨hconf, psInit_inconsistent_error _ hconf⟩

section SolverTheorems

variable {V : Type} [AddCommGroup V] [Module ℚ V]

/-- C2 (amended): newtons_method stops the iteration as soon as
|dd| ≤ tol, while bfgs_method and broydens_method stop only when
|dd| < tol strictly; an iteration with |dd| exactly equal to tol
therefore terminates newtons_method but not the other two solvers. -/
theorem solver_dd_termination :
    (∀ (grad : V → V) (deriv : V → V → V) (cg : (V → V) → V → V → Nat → V)
        (ip : V → V → ℚ) (ls : V → V → ℚ → ℚ) (tol : ℚ) (cgIter fuel : Nat)
        (st : NewtonState V), |newtDD grad deriv cg ip cgIter st| ≤ tol →
        newtonLoop grad deriv cg ip ls tol cgIter (fuel + 1) st = st) ∧
    (∀ (grad : V → V) (ip : V → V → ℚ) (ls : V → V → ℚ → ℚ) (tol : ℚ)
        (maxcor : Option Nat) (hessinvEstimate : Option (V → V)) (fuel : Nat)
        (st : BfgsState V), |bfgsDD ip hessinvEstimate st| < tol →
        bfgsLoop grad ip ls tol maxcor hessinvEstimate (fuel + 1) st = st) ∧
    (∀ (grad : V → V) (ip : V → V → ℚ) (ls : V → V → ℚ → ℚ) (impl : String)
        (tol : ℚ) (fuel : Nat) (st : BroydenState V), |broyDD ip st| < tol →
        broydenLoop grad ip ls impl tol (fuel + 1) st = st) := by
  refine ⟨?_, ?_, ?_⟩
  · intro grad deriv cg ip ls tol cgIter fuel st h
    rw [newtonLoop_succ, if_pos h]
  · intro grad ip ls tol maxcor hinv fuel st h
    rw [bfgsLoop_succ, if_pos h]
  · intro grad ip ls impl tol fuel st h
    rw [broydenLoop_succ, if_pos h]

/-- C2 counterexample: minimising half the square on ℚ (gradient the
identity) with unit step and tol = 1, the first bfgs_method iteration
has |dd| equal to tol exactly, yet the solver does not terminate there:
it takes the step, so the final state differs from the start state (the
callback fired and x moved to 0). -/
theorem bfgs_eq_tol_continues :
    |bfgsDD (fun a b : ℚ => a * b) none ⟨1, 1, [], [], [], [], []⟩| = 1 ∧
    (bfgsLoop (fun v : ℚ => v) (fun a b => a * b) (fun _ _ _ => 1) 1 none none 2
        ⟨1, 1, [], [], [], [], []⟩).cbLog = [0] ∧
    (bfgsLoop (fun v : ℚ => v) (fun a b => a * b) (fun _ _ _ => 1) 1 none none 2
        ⟨1, 1, [], [], [], [], []⟩).x = 0 ∧
    bfgsLoop (fun v : ℚ => v) (fun a b => a * b) (fun _ _ _ => 1) 1 none none 2
        ⟨1, 1, [], [], [], [], []⟩ ≠ ⟨1, 1, [], [], [], [], []⟩ := by
  have habs : |bfgsDD (fun a b : ℚ => a * b) none
      (⟨1, 1, [], [], [], [], []⟩ : BfgsState ℚ)| = 1 := by
    norm_num [bfgsDD, bfgsDir, bfgsSearchDir, bfgsMultiply, backLoop, fwdLoop]
  have hc1 : ¬ |bfgsDD (fun a b : ℚ => a * b) none
      (⟨1, 1, [], [], [], [], []⟩ : BfgsState ℚ)| < 1 := by
    rw [habs]
    norm_num
  have hc2 : ¬ |bfgsCurv (fun v : ℚ => v) (fun a b : ℚ => a * b) (fun _ _ _ => 1) none
      (⟨1, 1, [], [], [], [], []⟩ : BfgsState ℚ)| < 1 := by
    norm_num [bfgsCurv, bfgsGdiff, bfgsX1, bfgsXUpd, bfgsStep, bfgsDD, bfgsDir,
      bfgsSearchDir, bfgsMultiply, backLoop, fwdLoop, smul_eq_mul]
  have hdd2 : |bfgsDD (fun a b : ℚ => a * b) none
      (bfgsNext (fun v : ℚ => v) (fun a b => a * b) (fun _ _ _ => 1) none none
        ⟨1, 1, [], [], [], [], []⟩)| < 1 := by
    norm_num [bfgsDD, bfgsDir, bfgsSearchDir, bfgsMultiply, backLoop, fwdLoop,
      bfgsNext, bfgsGdiff, bfgsX1, bfgsXUpd, bfgsStep, truncHist, smul_eq_mul,
      Function.update, List.getD_cons_zero]
  have hrun : bfgsLoop (fun v : ℚ => v) (fun a b => a * b) (fun _ _ _ => 1) 1 none none 2
      ⟨1, 1, [], [], [], [], []⟩ =
      bfgsNext (fun v : ℚ => v) (fun a b => a * b) (fun _ _ _ => 1) none none
        ⟨1, 1, [], [], [], [], []⟩ := by
    rw [show (2 : Nat) = 1 + 1 from rfl, bfgsLoop_succ, if_neg hc1, if_neg hc2,
      show (1 : Nat) = 0 + 1 from rfl, bfgsLoop_succ, if_pos hdd2]
  have hlog : (bfgsNext (fun v : ℚ => v) (fun a b => a * b) (fun _ _ _ => 1) none none
      (⟨1, 1, [], [], [], [], []⟩ : BfgsState ℚ)).cbLog = [0] := by
    norm_num [bfgsNext, bfgsX1, bfgsXUpd, bfgsStep, bfgsDD, bfgsDir, bfgsSearchDir,
      bfgsMultiply, backLoop, fwdLoop, smul_eq_mul]
  have hx : (bfgsNext (fun v : ℚ => v) (fun a b => a * b) (fun _ _ _ => 1) none none
      (⟨1, 1, [], [], [], [], []⟩ : BfgsState ℚ)).x = 0 := by
    norm_num [bfgsNext, bfgsX1, bfgsXUpd, bfgsStep, bfgsDD, bfgsDir, bfgsSearchDir,
      bfgsMultiply, backLoop, fwdLoop, smul_eq_mul]
  refine ⟨habs, by rw [hrun, hlog], by rw [hrun, hx], fun h => ?_⟩
  rw [hrun] at h
  have hcb := congrArg BfgsState.cbLog h
  rw [hlog] at hcb
  exact List.cons_ne_nil _ _ hcb

/-- Witness for C2: instances where each solver's stopping test fires on
the first iteration and the loop returns its start state. -/
theorem solver_dd_termination_witness :
    (|newtDD (fun v : ℚ => v) (fun _ w => w) (fun _ _ b _ => b) (fun a b => a * b) 3
        ⟨0, []⟩| ≤ 0 ∧
      newtonLoop (fun v : ℚ => v) (fun _ w => w) (fun _ _ b _ => b) (fun a b => a * b)
        (fun _ _ _ => 1) 0 3 1 ⟨0, []⟩ = ⟨0, []⟩) ∧
    (|bfgsDD (fun a b : ℚ => a * b) none ⟨0, 0, [], [], [], [], []⟩| < 1 ∧
      bfgsLoop (fun _ : ℚ => 0) (fun a b => a * b) (fun _ _ _ => 1) 1 none none 1
        ⟨0, 0, [], [], [], [], []⟩ = ⟨0, 0, [], [], [], [], []⟩) ∧
    (|broyDD (fun a b : ℚ => a * b) ⟨0, 0, fun w => w, []⟩| < 1 ∧
      broydenLoop (fun _ : ℚ => 0) (fun a b => a * b) (fun _ _ _ => 1) "first" 1 1
        ⟨0, 0, fun w => w, []⟩ = ⟨0, 0, fun w => w, []⟩) := by
  have hn : |newtDD (fun v : ℚ => v) (fun _ w => w) (fun _ _ b _ => b)
      (fun a b => a * b) 3 (⟨0, []⟩ : NewtonState ℚ)| ≤ 0 := by
    norm_num [newtDD, newtDir]
  have hbf : |bfgsDD (fun a b : ℚ => a * b) none
      (⟨0, 0, [], [], [], [], []⟩ : BfgsState ℚ)| < 1 := by
    norm_num [bfgsDD, bfgsDir, bfgsSearchDir, bfgsMultiply, backLoop, fwdLoop]
  have hbr : |broyDD (fun a b : ℚ => a * b)
      (⟨0, 0, fun w => w, []⟩ : BroydenState ℚ)| < 1 := by
    norm_num [broyDD, broyDir]
  exact ⟨⟨hn, solver_dd_termination.1 _ _ _ _ _ 0 3 0 _ hn⟩,
   ⟨hbf, solver_dd_termination.2.1 _ _ _ 1 none none 0 _ hbf⟩,
   ⟨hbr, solver_dd_termination.2.2 _ _ _ "first" 1 0 _ hbr⟩⟩

/-- C4: the bfgs_method search direction, -_bfgs_multiply(ys, ss,
grad_x, hessinv_estimate), equals the negation of the spec's two-loop
recursion applied to the current gradient, with the s pairs being the
stored displacements (the ys list) and the y pairs the stored gradient
differences (the ss list), and the optional initial inverse-Hessian
estimate applied between the passes. -/
theorem bfgs_search_dir_two_loop (ip : V → V → ℚ) (ys ss : List V) (gradx : V)
    (hessinvEstimate : Option (V → V)) (hlen : ys.length = ss.length) :
    bfgsSearchDir ip ys ss gradx hessinvEstimate =
      -(specTwoLoop ip ys ss gradx hessinvEstimate) := by
  unfold bfgsSearchDir
  rw [bfgsMultiply_spec ip ys ss hlen]

/-- C5: with a positive maxcor, after any run of the bfgs_method loop
from a state whose histories are the last maxcor entries of its append
logs, the final histories are exactly the last maxcor appended pairs and
never hold more than maxcor entries; with maxcor unset the histories are
the full append logs. -/
theorem bfgs_history_fifo (grad : V → V) (ip : V → V → ℚ) (ls : V → V → ℚ → ℚ)
    (tol : ℚ) (hessinvEstimate : Option (V → V)) :
    (∀ m, 0 < m → ∀ fuel (st : BfgsState V),
      st.ss = pyLastSlice m st.appS → st.ys = pyLastSlice m st.appY →
      ((bfgsLoop grad ip ls tol (some m) hessinvEstimate fuel st).ss =
          pyLastSlice m (bfgsLoop grad ip ls tol (some m) hessinvEstimate fuel st).appS ∧
        (bfgsLoop grad ip ls tol (some m) hessinvEstimate fuel st).ys =
          pyLastSlice m (bfgsLoop grad ip ls tol (some m) hessinvEstimate fuel st).appY ∧
        (bfgsLoop grad ip ls tol (some m) hessinvEstimate fuel st).ss.length ≤ m ∧
        (bfgsLoop grad ip ls tol (some m) hessinvEstimate fuel st).ys.length ≤ m)) ∧
    (∀ fuel (st : BfgsState V), st.ss = st.appS → st.ys = st.appY →
      ((bfgsLoop grad ip ls tol none hessinvEstimate fuel st).ss =
          (bfgsLoop grad ip ls tol none hessinvEstimate fuel st).appS ∧
        (bfgsLoop grad ip ls tol none hessinvEstimate fuel st).ys =
          (bfgsLoop grad ip ls tol none hessinvEstimate fuel st).appY)) := by
  constructor
  · intro m hm fuel
    induction fuel with
    | zero =>
        intro st h1 h2
        refine ⟨h1, h2, ?_, ?_⟩
        · show st.ss.length ≤ m
          rw [h1]
          exact pyLastSlice_length_le m hm _
        · show st.ys.length ≤ m
          rw [h2]
          exact pyLastSlice_length_le m hm _
    | succ fuel ih =>
        intro st h1 h2
        rw [bfgsLoop_succ]
        by_cases hdd : |bfgsDD ip hessinvEstimate st| < tol
        · rw [if_pos hdd]
          exact ⟨h1, h2, by rw [h1]; exact pyLastSlice_length_le m hm _,
            by rw [h2]; exact pyLastSlice_length_le m hm _⟩
        · rw [if_neg hdd]
          by_cases hcurv : |bfgsCurv grad ip ls hessinvEstimate st| < tol
          · rw [if_pos hcurv]
            exact ⟨h1, h2, by rw [h1]; exact pyLastSlice_length_le m hm _,
              by rw [h2]; exact pyLastSlice_length_le m hm _⟩
          · rw [if_neg hcurv]
            apply ih
            · show pyLastSlice m (st.ss ++ [bfgsGdiff grad ip ls hessinvEstimate st]) =
                pyLastSlice m (st.appS ++ [bfgsGdiff grad ip ls hessinvEstimate st])
              rw [h1]
              exact pyLastSlice_append_one m hm _ _
            · show pyLastSlice m (st.ys ++ [bfgsXUpd ip ls hessinvEstimate st]) =
                pyLastSlice m (st.appY ++ [bfgsXUpd ip ls hessinvEstimate st])
              rw [h2]
              exact pyLastSlice_append_one m hm _ _
  · intro fuel
    induction fuel with
    | zero => intro st h1 h2; exact ⟨h1, h2⟩
    | succ fuel ih =>
        intro st h1 h2
        rw [bfgsLoop_succ]
        by_cases hdd : |bfgsDD ip hessinvEstimate st| < tol
        · rw [if_pos hdd]; exact ⟨h1, h2⟩
        · rw [if_neg hdd]
          by_cases hcurv : |bfgsCurv grad ip ls hessinvEstimate st| < tol
          · rw [if_pos hcurv]; exact ⟨h1, h2⟩
          · rw [if_neg hcurv]
            apply ih
            · show st.ss ++ [bfgsGdiff grad ip ls hessinvEstimate st] =
                st.appS ++ [bfgsGdiff grad ip ls hessinvEstimate st]
              rw [h1]
            · show st.ys ++ [bfgsXUpd ip ls hessinvEstimate st] =
                st.appY ++ [bfgsXUpd ip ls hessinvEstimate st]
              rw [h2]

/-- C6: for any impl other than "first" and "second", broydens_method
never updates the approximate Hessian over any number of iterations,
while a non-terminating iteration still updates x and invokes the
callback as usual. -/
theorem broyden_unknown_impl_noop (grad : V → V) (ip : V → V → ℚ)
    (ls : V → V → ℚ → ℚ) (impl : String) (tol : ℚ)
    (h1 : impl ≠ "first") (h2 : impl ≠ "second") :
    (∀ fuel (st : BroydenState V),
      (broydenLoop grad ip ls impl tol fuel st).hess = st.hess) ∧
    (∀ fuel (st : BroydenState V), ¬ |broyDD ip st| < tol →
      broydenLoop grad ip ls impl tol (fuel + 1) st =
        broydenLoop grad ip ls impl tol fuel
          ⟨broyX1 ip ls st, grad (broyX1 ip ls st), st.hess,
            st.cbLog ++ [broyX1 ip ls st]⟩) := by
  constructor
  · intro fuel
    induction fuel with
    | zero => intro st; rfl
    | succ fuel ih =>
        intro st
        rw [broydenLoop_succ]
        by_cases hdd : |broyDD ip st| < tol
        · rw [if_pos hdd]
        · rw [if_neg hdd, if_neg h1, if_neg h2]
          exact ih _
  · intro fuel st hdd
    rw [broydenLoop_succ, if_neg hdd, if_neg h1, if_neg h2]

/-- Witness for C6: impl = "third" leaves the identity Hessian untouched
while the iteration proceeds. -/
theorem broyden_unknown_impl_noop_witness :
    ("third" ≠ "first" ∧ "third" ≠ "second") ∧
    (broydenLoop (fun v : ℚ => v) (fun a b => a * b) (fun _ _ _ => 1) "third" 1 2
        ⟨1, 1, fun w => w, []⟩).hess = (⟨1, 1, fun w => w, []⟩ : BroydenState ℚ).hess ∧
    (¬ |broyDD (fun a b : ℚ => a * b) ⟨1, 1, fun w => w, []⟩| < 1 ∧
      broydenLoop (fun v : ℚ => v) (fun a b => a * b) (fun _ _ _ => 1) "third" 1 1
          ⟨1, 1, fun w => w, []⟩ =
        broydenLoop (fun v : ℚ => v) (fun a b => a * b) (fun _ _ _ => 1) "third" 1 0
          ⟨broyX1 (fun a b : ℚ => a * b) (fun _ _ _ => 1) ⟨1, 1, fun w => w, []⟩,
            (fun v : ℚ => v)
              (broyX1 (fun a b : ℚ => a * b) (fun _ _ _ => 1) ⟨1, 1, fun w => w, []⟩),
            (⟨1, 1, fun w => w, []⟩ : BroydenState ℚ).hess,
            (⟨1, 1, fun w => w, []⟩ : BroydenState ℚ).cbLog ++
              [broyX1 (fun a b : ℚ => a * b) (fun _ _ _ => 1) ⟨1, 1, fun w => w, []⟩]⟩) := by
  have hdd : ¬ |broyDD (fun a b : ℚ => a * b)
      (⟨1, 1, fun w => w, []⟩ : BroydenState ℚ)| < 1 := by
    norm_num [broyDD, broyDir]
  refine ⟨⟨by decide, by decide⟩, ?_, hdd, ?_⟩
  · exact (broyden_unknown_impl_noop _ _ _ _ _ (by decide) (by decide)).1 2 _
  · exact (broyden_unknown_impl_noop _ _ _ _ _ (by decide) (by decide)).2 0 _ hdd

/-- C10: when the curvature guard of bfgs_method or the divisor guard of
either broydens_method variant trips, the solver returns with x already
updated by the final line-search step while the callback log is left
untouched: the early return is not atomic with respect to x. -/
theorem guard_return_updates_x :
    (∀ (grad : V → V) (ip : V → V → ℚ) (ls : V → V → ℚ → ℚ) (tol : ℚ)
        (maxcor : Option Nat) (hessinvEstimate : Option (V → V)) (fuel : Nat)
        (st : BfgsState V),
        ¬ |bfgsDD ip hessinvEstimate st| < tol →
        |bfgsCurv grad ip ls hessinvEstimate st| < tol →
        (bfgsLoop grad ip ls tol maxcor hessinvEstimate (fuel + 1) st).x =
            st.x + bfgsXUpd ip ls hessinvEstimate st ∧
          (bfgsLoop grad ip ls tol maxcor hessinvEstimate (fuel + 1) st).cbLog =
            st.cbLog) ∧
    (∀ (grad : V → V) (ip : V → V → ℚ) (ls : V → V → ℚ → ℚ) (tol : ℚ) (fuel : Nat)
        (st : BroydenState V),
        ¬ |broyDD ip st| < tol → |broyDiv1 grad ip ls st| < tol →
        (broydenLoop grad ip ls "first" tol (fuel + 1) st).x =
            st.x + broyDeltaX ip ls st ∧
          (broydenLoop grad ip ls "first" tol (fuel + 1) st).cbLog = st.cbLog) ∧
    (∀ (grad : V → V) (ip : V → V → ℚ) (ls : V → V → ℚ → ℚ) (tol : ℚ) (fuel : Nat)
        (st : BroydenState V),
        ¬ |broyDD ip st| < tol → |broyDiv2 grad ip ls st| < tol →
        (broydenLoop grad ip ls "second" tol (fuel + 1) st).x =
            st.x + broyDeltaX ip ls st ∧
          (broydenLoop grad ip ls "second" tol (fuel + 1) st).cbLog = st.cbLog) := by
  refine ⟨?_, ?_, ?_⟩
  · intro grad ip ls tol maxcor hinv fuel st hdd hcurv
    rw [bfgsLoop_succ, if_neg hdd, if_pos hcurv]
    exact ⟨rfl, rfl⟩
  · intro grad ip ls tol fuel st hdd hdiv
    rw [broydenLoop_succ, if_neg hdd, if_pos rfl, if_pos hdiv]
    exact ⟨rfl, rfl⟩
  · intro grad ip ls tol fuel st hdd hdiv
    rw [broydenLoop_succ, if_neg hdd,
      if_neg (by decide : ¬("second" = "first")), if_pos rfl, if_pos hdiv]
    exact ⟨rfl, rfl⟩

end SolverTheorems

/-- Witness for C5: the empty start state satisfies the invariants and a
two-iteration run of the quadratic example keeps them. -/
theorem bfgs_history_fifo_witness :
    (0 < 1 ∧
      (⟨1, 1, [], [], [], [], []⟩ : BfgsState ℚ).ss =
        pyLastSlice 1 (⟨1, 1, [], [], [], [], []⟩ : BfgsState ℚ).appS ∧
      (bfgsLoop (fun v : ℚ => v) (fun a b => a * b) (fun _ _ _ => 1) 1 (some 1) none 2
          ⟨1, 1, [], [], [], [], []⟩).ss =
        pyLastSlice 1 (bfgsLoop (fun v : ℚ => v) (fun a b => a * b) (fun _ _ _ => 1) 1
          (some 1) none 2 ⟨1, 1, [], [], [], [], []⟩).appS ∧
      (bfgsLoop (fun v : ℚ => v) (fun a b => a * b) (fun _ _ _ => 1) 1 (some 1) none 2
          ⟨1, 1, [], [], [], [], []⟩).ss.length ≤ 1) ∧
    ((bfgsLoop (fun v : ℚ => v) (fun a b => a * b) (fun _ _ _ => 1) 1 none none 2
          ⟨1, 1, [], [], [], [], []⟩).ss =
        (bfgsLoop (fun v : ℚ => v) (fun a b => a * b) (fun _ _ _ => 1) 1 none none 2
          ⟨1, 1, [], [], [], [], []⟩).appS) := by
  have h1 := (bfgs_history_fifo (fun v : ℚ => v) (fun a b => a * b) (fun _ _ _ => 1) 1
    none).1 1 (by decide) 2 ⟨1, 1, [], [], [], [], []⟩ (by decide) (by decide)
  have h2 := (bfgs_history_fifo (fun v : ℚ => v) (fun a b => a * b) (fun _ _ _ => 1) 1
    none).2 2 ⟨1, 1, [], [], [], [], []⟩ rfl rfl
  exact ⟨⟨by decide, by decide, h1.1, h1.2.2.1⟩, h2.1⟩

/-- Witness for C4: a one-pair history on ℚ. -/
theorem bfgs_search_dir_two_loop_witness :
    ([(2 : ℚ)].length = [(3 : ℚ)].length) ∧
    bfgsSearchDir (fun a b : ℚ => a * b) [2] [3] 5 none =
      -(specTwoLoop (fun a b : ℚ => a * b) [2] [3] 5 none) :=
  ⟨rfl, bfgs_search_dir_two_loop (fun a b : ℚ => a * b) [2] [3] 5 none rfl⟩

/-- Witness for C10: a constant gradient trips the curvature and divisor
guards on the first iteration of each solver. -/
theorem guard_return_updates_x_witness :
    ((¬ |bfgsDD (fun a b : ℚ => a * b) none ⟨0, 1, [], [], [], [], []⟩| < 1 / 2) ∧
      |bfgsCurv (fun _ : ℚ => 1) (fun a b => a * b) (fun _ _ _ => 1) none
        ⟨0, 1, [], [], [], [], []⟩| < 1 / 2 ∧
      (bfgsLoop (fun _ : ℚ => 1) (fun a b => a * b) (fun _ _ _ => 1) (1 / 2) none none 3
          ⟨0, 1, [], [], [], [], []⟩).x =
        (0 : ℚ) + bfgsXUpd (fun a b : ℚ => a * b) (fun _ _ _ => 1) none
          ⟨0, 1, [], [], [], [], []⟩ ∧
      (bfgsLoop (fun _ : ℚ => 1) (fun a b => a * b) (fun _ _ _ => 1) (1 / 2) none none 3
          ⟨0, 1, [], [], [], [], []⟩).cbLog = []) ∧
    ((¬ |broyDD (fun a b : ℚ => a * b) ⟨0, 1, fun w => w, []⟩| < 1 / 2) ∧
      |broyDiv1 (fun _ : ℚ => 1) (fun a b => a * b) (fun _ _ _ => 1)
        ⟨0, 1, fun w => w, []⟩| < 1 / 2 ∧
      (broydenLoop (fun _ : ℚ => 1) (fun a b => a * b) (fun _ _ _ => 1) "first" (1 / 2) 3
          ⟨0, 1, fun w => w, []⟩).x =
        (0 : ℚ) + broyDeltaX (fun a b : ℚ => a * b) (fun _ _ _ => 1)
          ⟨0, 1, fun w => w, []⟩ ∧
      (broydenLoop (fun _ : ℚ => 1) (fun a b => a * b) (fun _ _ _ => 1) "first" (1 / 2) 3
          ⟨0, 1, fun w => w, []⟩).cbLog = []) ∧
    ((¬ |broyDD (fun a b : ℚ => a * b) ⟨0, 1, fun w => w, []⟩| < 1 / 2) ∧
      |broyDiv2 (fun _ : ℚ => 1) (fun a b => a * b) (fun _ _ _ => 1)
        ⟨0, 1, fun w => w, []⟩| < 1 / 2 ∧
      (broydenLoop (fun _ : ℚ => 1) (fun a b => a * b) (fun _ _ _ => 1) "second" (1 / 2) 3
          ⟨0, 1, fun w => w, []⟩).x =
        (0 : ℚ) + broyDeltaX (fun a b : ℚ => a * b) (fun _ _ _ => 1)
          ⟨0, 1, fun w => w, []⟩ ∧
      (broydenLoop (fun _ : ℚ => 1) (fun a b => a * b) (fun _ _ _ => 1) "second" (1 / 2) 3
          ⟨0, 1, fun w => w, []⟩).cbLog = []) := by
  have hb1 : ¬ |bfgsDD (fun a b : ℚ => a * b) none
      (⟨0, 1, [], [], [], [], []⟩ : BfgsState ℚ)| < 1 / 2 := by
    norm_num [bfgsDD, bfgsDir, bfgsSearchDir, bfgsMultiply, backLoop, fwdLoop]
  have hb2 : |bfgsCurv (fun _ : ℚ => 1) (fun a b => a * b) (fun _ _ _ => 1) none
      (⟨0, 1, [], [], [], [], []⟩ : BfgsState ℚ)| < 1 / 2 := by
    norm_num [bfgsCurv, bfgsGdiff, bfgsX1, bfgsXUpd, bfgsStep, bfgsDD, bfgsDir,
      bfgsSearchDir, bfgsMultiply, backLoop, fwdLoop, smul_eq_mul]
  have hr1 : ¬ |broyDD (fun a b : ℚ => a * b)
      (⟨0, 1, fun w => w, []⟩ : BroydenState ℚ)| < 1 / 2 := by
    norm_num [broyDD, broyDir]
  have hr2 : |broyDiv1 (fun _ : ℚ => 1) (fun a b => a * b) (fun _ _ _ => 1)
      (⟨0, 1, fun w => w, []⟩ : BroydenState ℚ)| < 1 / 2 := by
    norm_num [broyDiv1, broyDeltaX, broyX1, broyDeltaGrad, broyV, broyDD, broyDir,
      smul_eq_mul]
  have hr3 : |broyDiv2 (fun _ : ℚ => 1) (fun a b => a * b) (fun _ _ _ => 1)
      (⟨0, 1, fun w => w, []⟩ : BroydenState ℚ)| < 1 / 2 := by
    norm_num [broyDiv2, broyDeltaX, broyX1, broyDeltaGrad, broyV, broyDD, broyDir,
      smul_eq_mul]
  refine ⟨⟨hb1, hb2, ?_, ?_⟩, ⟨hr1, hr2, ?_, ?_⟩, ⟨hr1, hr3, ?_, ?_⟩⟩
  · exact (guard_return_updates_x.1 _ _ _ _ none none 2 _ hb1 hb2).1
  · exact (guard_return_updates_x.1 _ _ _ _ none none 2 _ hb1 hb2).2
  · exact (guard_return_updates_x.2.1 _ _ _ _ 2 _ hr1 hr2).1
  · exact (guard_return_updates_x.2.1 _ _ _ _ 2 _ hr1 hr2).2
  · exact (guard_return_updates_x.2.2 _ _ _ _ 2 _ hr1 hr3).1
  · exact (guard_return_updates_x.2.2 _ _ _ _ 2 _ hr1 hr3).2

end ODL
